import Mathlib

/-!
Verification of the hot-reload subsystem and the static-markup splitter of
the dioxus fullstack package.

The embedding follows the two source files:

* packages/fullstack/src/hot_reload.rs — the template cache (a
  HashSet behind a RwLock), the watch channel used as the version slot, the
  watcher callback (notification bridge), and the lazily initialized
  process-wide singleton (tokio OnceCell).
* packages/fullstack/src/serve_config.rs — load_index_html, which
  splits the contents of an index file around the closing tag of the root
  element.

Templates are compared by structural equality; we model the template type as
an arbitrary type with decidable equality and the HashSet as a duplicate-free
list.  Machine effects (process exit, tracing) are modelled as explicit state
fields.  The watch channel is a single version-stamped slot.  Strings are
modelled as lists of characters, with the semantics of str split_once spelled
out as a recursive function.
-/

section Cache

variable {T : Type} [DecidableEq T]

/-- Model of `HashSet::insert` on the template cache: returns the updated
contents together with the bool Rust returns (true when the value was newly
added, false when a structurally-equal value was already present). -/
def cacheInsert (c : List T) (t : T) : List T × Bool :=
  if t ∈ c then (c, false) else (c ++ [t], true)

theorem cacheInsert_mem (c : List T) (t : T) : t ∈ (cacheInsert c t).1 := by
  unfold cacheInsert
  by_cases h : t ∈ c <;> simp [h]

theorem cacheInsert_mono (c : List T) (t u : T) (h : u ∈ c) :
    u ∈ (cacheInsert c t).1 := by
  unfold cacheInsert
  by_cases ht : t ∈ c <;> simp [ht, h]

end Cache

section Bridge

variable {T : Type} [DecidableEq T]

/-- The tagged event delivered by the external watcher
(`dioxus_hot_reload::HotReloadMsg`). -/
inductive HotReloadMsg (T : Type) : Type
  | UpdateTemplate (t : T)
  | Shutdown
deriving DecidableEq

/-- State touched by the notification bridge: the template cache, the watch
channel slot (value and version), whether the receiving side of the channel
is still alive, a count of logged publish failures, and the process exit
status (some code once `std::process::exit` has run). -/
structure BridgeState (T : Type) : Type where
  cache : List T
  slot : Option T
  version : Nat
  rxAlive : Bool
  logCount : Nat
  exited : Option Nat
deriving DecidableEq

/-- The state before any watcher event: empty cache, channel created with
`channel(None)`, receiver alive, process running. -/
def bridgeInit : BridgeState T :=
  { cache := [], slot := none, version := 0, rxAlive := true,
    logCount := 0, exited := none }

/-- One invocation of the watcher callback in `HotReloadState::default`:
an update event inserts into the cache and then unconditionally sends on the
watch channel (a failed send is logged and ignored, and does not store the
value); a shutdown event calls `std::process::exit(0)`.  A dead process
handles nothing. -/
def handleMsg (s : BridgeState T) (m : HotReloadMsg T) : BridgeState T :=
  if s.exited.isSome then s
  else
    match m with
    | .UpdateTemplate t =>
        let c := (cacheInsert s.cache t).1
        if s.rxAlive then
          { s with cache := c, slot := some t, version := s.version + 1 }
        else
          { s with cache := c, logCount := s.logCount + 1 }
    | .Shutdown => { s with exited := some 0 }

/-- Sequential processing of a list of watcher events, in emission order. -/
def runMsgs (s : BridgeState T) (ms : List (HotReloadMsg T)) : BridgeState T :=
  ms.foldl handleMsg s

end Bridge

section Claims1

variable {T : Type} [DecidableEq T]

/-- C1: inserting a template into the cache when a structurally-equal value
is already present leaves the contents and size unchanged and reports false;
the insert reports true exactly once for a given content: on the first
insert of an absent content, and never again once the content is present
(the state after any insert of `t` rejects a further insert of `t`). -/
theorem insert_dedup_once (c : List T) (t : T) :
    (t ∈ c → cacheInsert c t = (c, false)) ∧
    (t ∉ c → (cacheInsert c t).2 = true) ∧
    cacheInsert (cacheInsert c t).1 t = ((cacheInsert c t).1, false) := by
  refine ⟨fun h => ?_, fun h => ?_, ?_⟩
  · simp [cacheInsert, h]
  · simp [cacheInsert, h]
  · have hm : t ∈ (cacheInsert c t).1 := cacheInsert_mem c t
    unfold cacheInsert at hm ⊢
    simp [hm]

/-- Witness for C1 at concrete inputs: a present value is rejected without
change, an absent value is reported newly added. -/
theorem insert_dedup_once_witness :
    cacheInsert [3] 3 = ([3], false) ∧ (cacheInsert ([] : List Nat) 3).2 = true :=
  ⟨(insert_dedup_once [3] 3).1 (by decide),
   (insert_dedup_once ([] : List Nat) 3).2.1 (by decide)⟩

end Claims1

section MicroStep

variable {T : Type} [DecidableEq T]

/-- Bridge state for the fine-grained step relation: as `BridgeState`, plus a
`pending` field recording a template whose cache insert has completed but
whose slot publish has not happened yet (the watcher callback performs the
two actions in that order, releasing the cache write lock in between). -/
structure MBridgeState (T : Type) : Type where
  cache : List T
  slot : Option T
  version : Nat
  pending : Option T
  rxAlive : Bool
  logCount : Nat
  exited : Option Nat
deriving DecidableEq

/-- Initial state of the fine-grained model. -/
def mInit : MBridgeState T :=
  { cache := [], slot := none, version := 0, pending := none,
    rxAlive := true, logCount := 0, exited := none }

/-- Micro-step relation for the watcher callback.  An update event is split
into its two sequential actions exactly as the source performs them: first
the insert into the cache under the write lock, then the send into the watch
channel slot (which succeeds or fails depending on the receiver side).
Shutdown exits the process; the environment may drop the receiver at any
time. -/
inductive MStep : MBridgeState T → MBridgeState T → Prop
  | insertTemplate (s : MBridgeState T) (t : T)
      (hp : s.pending = none) (hx : s.exited = none) :
      MStep s { s with cache := (cacheInsert s.cache t).1, pending := some t }
  | publishOk (s : MBridgeState T) (t : T)
      (hp : s.pending = some t) (hrx : s.rxAlive = true) :
      MStep s { s with slot := some t, version := s.version + 1, pending := none }
  | publishFail (s : MBridgeState T) (t : T)
      (hp : s.pending = some t) (hrx : s.rxAlive = false) :
      MStep s { s with pending := none, logCount := s.logCount + 1 }
  | shutdownStep (s : MBridgeState T)
      (hp : s.pending = none) (hx : s.exited = none) :
      MStep s { s with exited := some 0 }
  | dropReceiver (s : MBridgeState T) :
      MStep s { s with rxAlive := false }

/-- A state is reachable when some finite sequence of micro-steps leads to it
from the initial state. -/
def MReachable (s : MBridgeState T) : Prop :=
  Relation.ReflTransGen MStep mInit s

theorem mstep_inv {s s' : MBridgeState T} (h : MStep s s')
    (hs : (∀ u, s.slot = some u → u ∈ s.cache) ∧
          (∀ u, s.pending = some u → u ∈ s.cache)) :
    (∀ u, s'.slot = some u → u ∈ s'.cache) ∧
    (∀ u, s'.pending = some u → u ∈ s'.cache) := by
  cases h with
  | insertTemplate t hp hx =>
      refine ⟨fun u hu => cacheInsert_mono _ _ _ (hs.1 u hu), fun u hu => ?_⟩
      simp only [Option.some.injEq] at hu
      subst hu
      exact cacheInsert_mem s.cache t
  | publishOk t hp hrx =>
      exact ⟨fun u hu => by
        simp only [Option.some.injEq] at hu
        subst hu
        exact hs.2 t hp, fun u hu => by simp at hu⟩
  | publishFail t hp hrx =>
      exact ⟨fun u hu => hs.1 u hu, fun u hu => by simp at hu⟩
  | shutdownStep hp hx =>
      exact ⟨fun u hu => hs.1 u hu, fun u hu => hs.2 u hu⟩
  | dropReceiver =>
      exact ⟨fun u hu => hs.1 u hu, fun u hu => hs.2 u hu⟩

theorem mreachable_inv {s : MBridgeState T} (hr : MReachable s) :
    (∀ u, s.slot = some u → u ∈ s.cache) ∧
    (∀ u, s.pending = some u → u ∈ s.cache) := by
  induction hr with
  | refl => exact ⟨fun u hu => by simp [mInit] at hu,
                  fun u hu => by simp [mInit] at hu⟩
  | tail _ hstep ih => exact mstep_inv hstep ih

end MicroStep

section Claims2

variable {T : Type} [DecidableEq T]

/-- C2: the cache insert happens-before the slot publish.  In every state
reachable under the micro-step relation — including the window between the
insert and the publish — a template observed as the slot value is already
present in the cache, so a consumer that sees a new slot value and queries
the cache finds it there. -/
theorem slot_value_in_cache {s : MBridgeState T} (hr : MReachable s) {t : T}
    (ht : s.slot = some t) : t ∈ s.cache :=
  (mreachable_inv hr).1 t ht

/-- Intermediate state for the C2 witness: the update of template 5 has been
inserted into the cache but not yet published. -/
def mW1 : MBridgeState Nat :=
  { mInit with cache := (cacheInsert mInit.cache 5).1, pending := some 5 }

/-- Final state for the C2 witness: template 5 has also been published. -/
def mW2 : MBridgeState Nat :=
  { mW1 with slot := some 5, version := mW1.version + 1, pending := none }

/-- Witness for C2: a concrete two-step run publishes 5; the theorem yields
that 5 is in the cache of the resulting state. -/
theorem slot_value_in_cache_witness : (5 : Nat) ∈ mW2.cache := by
  have h1 : MStep (mInit : MBridgeState Nat) mW1 :=
    MStep.insertTemplate mInit 5 rfl rfl
  have h2 : MStep mW1 mW2 := MStep.publishOk mW1 5 rfl rfl
  exact slot_value_in_cache
    (Relation.ReflTransGen.tail (Relation.ReflTransGen.tail
      Relation.ReflTransGen.refl h1) h2) rfl

/-- C3: the slot publish is unconditional.  Processing two consecutive
update events that carry structurally-identical templates leaves the cache
at size 1 (the second insert is a no-op), yet both events advanced the slot
version (from 0 to 2) and stored the value. -/
theorem publish_unconditional (t : T) :
    (runMsgs (bridgeInit : BridgeState T)
        [HotReloadMsg.UpdateTemplate t, HotReloadMsg.UpdateTemplate t]).cache = [t] ∧
    (runMsgs (bridgeInit : BridgeState T)
        [HotReloadMsg.UpdateTemplate t, HotReloadMsg.UpdateTemplate t]).cache.length = 1 ∧
    (runMsgs (bridgeInit : BridgeState T)
        [HotReloadMsg.UpdateTemplate t, HotReloadMsg.UpdateTemplate t]).version = 2 ∧
    (runMsgs (bridgeInit : BridgeState T)
        [HotReloadMsg.UpdateTemplate t, HotReloadMsg.UpdateTemplate t]).slot = some t := by
  simp [runMsgs, handleMsg, bridgeInit, cacheInsert]

theorem handleMsg_exited (s : BridgeState T) (m : HotReloadMsg T)
    (h : s.exited.isSome = true) : handleMsg s m = s := by
  simp [handleMsg, h]

theorem runMsgs_exited (s : BridgeState T) (ms : List (HotReloadMsg T))
    (h : s.exited.isSome = true) : runMsgs s ms = s := by
  induction ms with
  | nil => rfl
  | cons m ms ih =>
      show runMsgs (handleMsg s m) ms = s
      rw [handleMsg_exited s m h]
      exact ih

theorem runMsgs_append (s : BridgeState T) (a b : List (HotReloadMsg T)) :
    runMsgs s (a ++ b) = runMsgs (runMsgs s a) b :=
  List.foldl_append _ _ _ _

theorem runMsgs_no_shutdown_exited (s : BridgeState T)
    (es : List (HotReloadMsg T)) (hx : s.exited = none)
    (h : HotReloadMsg.Shutdown ∉ es) : (runMsgs s es).exited = none := by
  induction es generalizing s with
  | nil => exact hx
  | cons m ms ih =>
      have hm : m ≠ HotReloadMsg.Shutdown := fun he => h (he ▸ List.mem_cons_self m ms)
      have hms : HotReloadMsg.Shutdown ∉ ms := fun he => h (List.mem_cons_of_mem m he)
      show (runMsgs (handleMsg s m) ms).exited = none
      refine ih (handleMsg s m) ?_ hms
      cases m with
      | UpdateTemplate t =>
          by_cases hrx : s.rxAlive = true <;> simp [handleMsg, hx, hrx]
      | Shutdown => exact absurd rfl hm

/-- C5: processing a Shutdown event terminates the process with exit status 0
immediately.  The run over any event sequence consisting of non-shutdown
events, then Shutdown, then arbitrary further events, equals the state
reached just before the Shutdown with the exit status set to 0: updates
delivered before Shutdown are applied, and no event delivered after Shutdown
has any effect. -/
theorem shutdown_terminates (es rest : List (HotReloadMsg T))
    (h : HotReloadMsg.Shutdown ∉ es) :
    runMsgs (bridgeInit : BridgeState T) (es ++ HotReloadMsg.Shutdown :: rest)
      = { runMsgs (bridgeInit : BridgeState T) es with exited := some 0 } := by
  have hx : (runMsgs (bridgeInit : BridgeState T) es).exited = none :=
    runMsgs_no_shutdown_exited bridgeInit es rfl h
  rw [runMsgs_append]
  show runMsgs (handleMsg (runMsgs bridgeInit es) HotReloadMsg.Shutdown) rest = _
  have hstep : handleMsg (runMsgs (bridgeInit : BridgeState T) es)
      HotReloadMsg.Shutdown
      = { runMsgs (bridgeInit : BridgeState T) es with exited := some 0 } := by
    simp [handleMsg, hx]
  rw [hstep]
  exact runMsgs_exited _ rest rfl

/-- Witness for C5: one update, then Shutdown, then a post-shutdown update
that is never processed. -/
theorem shutdown_terminates_witness :
    HotReloadMsg.Shutdown ∉ [HotReloadMsg.UpdateTemplate (7 : Nat)] ∧
    runMsgs (bridgeInit : BridgeState Nat)
        [HotReloadMsg.UpdateTemplate 7, HotReloadMsg.Shutdown,
         HotReloadMsg.UpdateTemplate 9]
      = { runMsgs (bridgeInit : BridgeState Nat)
            [HotReloadMsg.UpdateTemplate 7] with exited := some 0 } :=
  ⟨by decide,
   shutdown_terminates [HotReloadMsg.UpdateTemplate 7]
     [HotReloadMsg.UpdateTemplate 9] (by decide)⟩

/-- C6: when the watch send fails (no live receiver), the bridge logs the
failure and returns normally.  The handler's result is an ordinary state (no
exit, hence nothing propagates to or crashes the watcher thread), the
template just inserted stays in the cache, exactly one failure is logged,
and the slot is untouched. -/
theorem publish_failure_recovered (s : BridgeState T) (t : T)
    (hrx : s.rxAlive = false) (hx : s.exited = none) :
    handleMsg s (HotReloadMsg.UpdateTemplate t)
      = { s with cache := (cacheInsert s.cache t).1,
                 logCount := s.logCount + 1 } ∧
    t ∈ (handleMsg s (HotReloadMsg.UpdateTemplate t)).cache ∧
    (handleMsg s (HotReloadMsg.UpdateTemplate t)).exited = none ∧
    (handleMsg s (HotReloadMsg.UpdateTemplate t)).slot = s.slot := by
  have he : handleMsg s (HotReloadMsg.UpdateTemplate t)
      = { s with cache := (cacheInsert s.cache t).1,
                 logCount := s.logCount + 1 } := by
    simp [handleMsg, hx, hrx]
  refine ⟨he, ?_, ?_, ?_⟩ <;> rw [he]
  · exact cacheInsert_mem s.cache t
  · exact hx

/-- Witness for C6: a concrete state with a dead receiver absorbs the failed
publish of template 4 while keeping the insert. -/
theorem publish_failure_recovered_witness :
    ({ bridgeInit with rxAlive := false } : BridgeState Nat).rxAlive = false ∧
    (4 : Nat) ∈ (handleMsg ({ bridgeInit with rxAlive := false } : BridgeState Nat)
      (HotReloadMsg.UpdateTemplate 4)).cache :=
  ⟨rfl, (publish_failure_recovered { bridgeInit with rxAlive := false } 4
    rfl rfl).2.1⟩

end Claims2

section OnceCellModel

variable {V : Type}

/-- State of the process-wide singleton protocol built on
`tokio::sync::OnceCell::get_or_init` in `spawn_hot_reload`: the cell value,
whether the one-time initializer has been started and how many times it has
been executed, how many callers are awaiting the in-flight initialization,
the handles already returned to callers, and whether a failed construction
(the `unwrap` in `spawn_hot_reload`) has aborted the process. -/
structure CellState (V : Type) : Type where
  value : Option V
  initStarted : Bool
  initCount : Nat
  waiting : Nat
  returned : List V
  aborted : Bool
deriving DecidableEq

/-- The cell before any accessor call. -/
def cellInit : CellState V :=
  { value := none, initStarted := false, initCount := 0, waiting := 0,
    returned := [], aborted := false }

/-- Step relation of the accessor protocol.  A caller that finds the cell
full gets its value immediately; the first caller to find it empty starts
the initializer (counted as one execution of the construction routine);
later concurrent callers join the wait; the initializer finishes either by
filling the cell and handing the constructed value to every waiter, or by
failing, which aborts the process. -/
inductive CellStep : CellState V → CellState V → Prop
  | hitExisting (s : CellState V) (v : V)
      (hv : s.value = some v) (hab : s.aborted = false) :
      CellStep s { s with returned := v :: s.returned }
  | startInit (s : CellState V)
      (hv : s.value = none) (hs : s.initStarted = false)
      (hab : s.aborted = false) :
      CellStep s { s with initStarted := true, initCount := s.initCount + 1,
                          waiting := s.waiting + 1 }
  | joinWait (s : CellState V)
      (hv : s.value = none) (hs : s.initStarted = true)
      (hab : s.aborted = false) :
      CellStep s { s with waiting := s.waiting + 1 }
  | initOk (s : CellState V) (v : V)
      (hv : s.value = none) (hs : s.initStarted = true)
      (hab : s.aborted = false) :
      CellStep s { s with value := some v, waiting := 0,
                          returned := List.replicate s.waiting v ++ s.returned }
  | initFail (s : CellState V)
      (hv : s.value = none) (hs : s.initStarted = true)
      (hab : s.aborted = false) :
      CellStep s { s with aborted := true }

/-- Reachability of cell states from the fresh cell. -/
def CellReachable (s : CellState V) : Prop :=
  Relation.ReflTransGen CellStep cellInit s

/-- A state from which the protocol offers no step; an aborted process is
stuck. -/
def CellStuck (s : CellState V) : Prop := ∀ s', ¬ CellStep s s'

/-- Combined invariant of the singleton protocol. -/
def CellInv (s : CellState V) : Prop :=
  s.initCount = (if s.initStarted then 1 else 0) ∧
  (∀ v ∈ s.returned, s.value = some v) ∧
  (s.value.isSome = true → s.initStarted = true) ∧
  (s.aborted = true → s.value = none)

theorem cellstep_inv {s s' : CellState V} (h : CellStep s s')
    (hs : CellInv s) : CellInv s' := by
  obtain ⟨h1, h2, h3, h4⟩ := hs
  cases h with
  | hitExisting v hv hab =>
      refine ⟨h1, ?_, h3, h4⟩
      intro u hu
      rcases List.mem_cons.1 hu with he | hm
      · exact he ▸ hv
      · exact h2 u hm
  | startInit hv hs0 hab =>
      refine ⟨by simp [hs0] at h1; simp [h1], ?_, by simp, by simpa using h4⟩
      intro u hu
      exact absurd (h2 u hu) (by simp [hv])
  | joinWait hv hs0 hab =>
      exact ⟨h1, h2, h3, h4⟩
  | initOk v hv hs0 hab =>
      refine ⟨h1, ?_, fun _ => hs0, by intro hab2; simp [hab] at hab2⟩
      intro u hu
      rcases List.mem_append.1 hu with hr | hm
      · simp [List.eq_of_mem_replicate hr]
      · exact absurd (h2 u hm) (by simp [hv])
  | initFail hv hs0 hab =>
      exact ⟨h1, h2, h3, fun _ => hv⟩

theorem cellreachable_inv {s : CellState V} (hr : CellReachable s) :
    CellInv s := by
  induction hr with
  | refl => exact ⟨rfl, fun v hv => by simp [cellInit] at hv, by simp [cellInit],
                  fun _ => rfl⟩
  | tail _ hstep ih => exact cellstep_inv hstep ih

end OnceCellModel

section Claims3

variable {V : Type}

/-- C4: exactly-once initialization of the process-wide state.  In every
reachable state of the accessor protocol the construction routine has run at
most once; every handle handed to a caller is backed by the one value stored
in the cell (all callers share the single instance); and as soon as any
caller has received a handle, the construction has run exactly once — later
calls obtain the existing instance without reconstructing. -/
theorem single_initialization {s : CellState V} (hr : CellReachable s) :
    s.initCount ≤ 1 ∧
    (∀ v ∈ s.returned, s.value = some v) ∧
    (s.returned ≠ [] → s.initCount = 1) := by
  obtain ⟨h1, h2, h3, _⟩ := cellreachable_inv hr
  refine ⟨?_, h2, ?_⟩
  · rw [h1]; by_cases hs : s.initStarted <;> simp [hs]
  · intro hne
    obtain ⟨v, hv⟩ := List.exists_mem_of_ne_nil s.returned hne
    have hsome : s.value.isSome = true := by rw [h2 v hv]; rfl
    rw [h1, h3 hsome]
    rfl

/-- First intermediate state for the C4 witness: one caller has started the
initializer. -/
def cW1 : CellState Nat :=
  { value := none, initStarted := true, initCount := 1, waiting := 1,
    returned := [], aborted := false }

/-- Second intermediate state for the C4 witness: a second concurrent caller
joined the wait. -/
def cW2 : CellState Nat :=
  { value := none, initStarted := true, initCount := 1, waiting := 2,
    returned := [], aborted := false }

/-- Final state for the C4 witness: the initializer completed with value 7
and both waiting callers received it. -/
def cW3 : CellState Nat :=
  { value := some 7, initStarted := true, initCount := 1, waiting := 0,
    returned := [7, 7], aborted := false }

/-- Witness for C4: two concurrent first-time callers; after initialization
completes, the routine has run exactly once and both returned handles carry
the cell's single value. -/
theorem single_initialization_witness :
    cW3.initCount ≤ 1 ∧
    (∀ v ∈ cW3.returned, cW3.value = some v) ∧
    (cW3.returned ≠ [] → cW3.initCount = 1) := by
  have s1 : CellStep (cellInit : CellState Nat) cW1 :=
    CellStep.startInit cellInit rfl rfl rfl
  have s2 : CellStep cW1 cW2 := CellStep.joinWait cW1 rfl rfl rfl
  have s3 : CellStep cW2 cW3 := CellStep.initOk cW2 7 rfl rfl rfl
  exact single_initialization
    (Relation.ReflTransGen.tail (Relation.ReflTransGen.tail
      (Relation.ReflTransGen.tail Relation.ReflTransGen.refl s1) s2) s3)

/-- C8: a failed one-time construction is fatal.  In every reachable state
in which the construction has failed and the process aborted, the cell holds
no value, no caller ever received any handle (in particular no partially
initialized one), and the protocol offers no further step: the failure is
unrecoverable and nothing degrades silently. -/
theorem init_failure_fatal {s : CellState V} (hr : CellReachable s)
    (hab : s.aborted = true) :
    s.value = none ∧ s.returned = [] ∧ CellStuck s := by
  obtain ⟨_, h2, _, h4⟩ := cellreachable_inv hr
  have hv : s.value = none := h4 hab
  refine ⟨hv, ?_, ?_⟩
  · cases hret : s.returned with
    | nil => rfl
    | cons v l =>
        have := h2 v (by rw [hret]; exact List.mem_cons_self v l)
        rw [hv] at this
        exact absurd this (by simp)
  · intro s' hstep
    cases hstep <;> simp_all

/-- Aborted state for the C8 witness: the initializer was started by a
caller and then failed. -/
def cWFail : CellState Nat :=
  { value := none, initStarted := true, initCount := 1, waiting := 1,
    returned := [], aborted := true }

/-- State for the C8 witness in which one caller has started the
initializer and is waiting on it. -/
def cWStart : CellState Nat :=
  { value := none, initStarted := true, initCount := 1, waiting := 1,
    returned := [], aborted := false }

/-- Witness for C8: a concrete run in which construction fails; the theorem
yields that nothing was stored, nothing was handed out, and the protocol is
stuck. -/
theorem init_failure_fatal_witness :
    cWFail.value = none ∧ cWFail.returned = [] ∧ CellStuck cWFail := by
  have s1 : CellStep (cellInit : CellState Nat) cWStart :=
    CellStep.startInit cellInit rfl rfl rfl
  have s2 : CellStep cWStart cWFail := CellStep.initFail cWStart rfl rfl rfl
  exact init_failure_fatal
    (Relation.ReflTransGen.tail (Relation.ReflTransGen.tail
      Relation.ReflTransGen.refl s1) s2) rfl

end Claims3

section Channel

variable {T : Type}

/-- The watch channel shared side: the single slot value and its version
stamp (`tokio::sync::watch`).  The channel created in
`HotReloadState::default` starts as `channel(None)`, hence the slot holds an
`Option` of a template. -/
structure WatchChannel (T : Type) : Type where
  value : Option T
  version : Nat
deriving DecidableEq

/-- One successful `tx.send`: stores the template as the new slot value and
advances the shared version. -/
def chSend (ch : WatchChannel T) (t : T) : WatchChannel T :=
  { value := some t, version := ch.version + 1 }

/-- A subscriber cursor: the last slot version this consumer has observed. -/
structure Cursor : Type where
  seen : Nat
deriving DecidableEq

/-- One `changed().await` plus `borrow` on a receiver: when the shared
version exceeds the cursor's last-seen version the call returns the current
slot value and the advanced cursor; otherwise the consumer stays suspended
(modelled as `none` — nothing is queued for it to consume). -/
def awaitNext (ch : WatchChannel T) (cu : Cursor) :
    Option (Option T × Cursor) :=
  if cu.seen < ch.version then some (ch.value, ⟨ch.version⟩) else none

theorem chSend_foldl_version (ts : List T) (ch : WatchChannel T) :
    (ts.foldl chSend ch).version = ch.version + ts.length := by
  induction ts generalizing ch with
  | nil => rfl
  | cons t ts ih =>
      show (ts.foldl chSend (chSend ch t)).version = _
      rw [ih (chSend ch t)]
      show ch.version + 1 + ts.length = ch.version + (ts.length + 1)
      omega

theorem chSend_foldl_value (ts : List T) (ch : WatchChannel T) :
    (ts.foldl chSend ch).value = ts.getLast?.elim ch.value some := by
  induction ts generalizing ch with
  | nil => rfl
  | cons t ts ih =>
      show (ts.foldl chSend (chSend ch t)).value = _
      rw [ih (chSend ch t)]
      cases hts : ts.getLast? with
      | none =>
          have : ts = [] := by
            cases ts with
            | nil => rfl
            | cons u us => simp [List.getLast?_concat, List.getLast?] at hts
          subst this
          simp [chSend]
      | some u =>
          have : (t :: ts).getLast? = some u := by
            rw [List.getLast?_cons]
            simp [hts]
          simp [this, hts]

end Channel

section Claims4

variable {T : Type}

/-- C7: the update channel is lossy with latest-value semantics.  If two or
more sends happen while a consumer is not waiting (its cursor is at or
behind the version it last observed), the next `await_next` returns exactly
the value of the final send, and afterwards nothing remains queued: an
immediate further `await_next` on the advanced cursor finds no replayable
value. -/
theorem lossy_latest_value (ch : WatchChannel T) (cu : Cursor) (ts : List T)
    (t : T) (h2 : 2 ≤ ts.length) (hlast : ts.getLast? = some t)
    (hc : cu.seen ≤ ch.version) :
    awaitNext (ts.foldl chSend ch) cu
      = some (some t, Cursor.mk (ch.version + ts.length)) ∧
    awaitNext (ts.foldl chSend ch) (Cursor.mk (ch.version + ts.length))
      = none := by
  have hv : (ts.foldl chSend ch).value = some t := by
    rw [chSend_foldl_value, hlast]; rfl
  have hver : (ts.foldl chSend ch).version = ch.version + ts.length :=
    chSend_foldl_version ts ch
  constructor
  · have hlt : cu.seen < (ts.foldl chSend ch).version := by
      rw [hver]; omega
    unfold awaitNext
    rw [if_pos hlt, hv, hver]
  · unfold awaitNext
    rw [hver]
    simp

/-- Witness for C7: two sends (of 1 then 2) against a fresh channel with an
idle cursor; the next await returns only the final value 2 and a further
await has nothing to consume. -/
theorem lossy_latest_value_witness :
    awaitNext (([1, 2] : List Nat).foldl chSend ⟨none, 0⟩) ⟨0⟩
      = some (some 2, Cursor.mk (0 + ([1, 2] : List Nat).length)) ∧
    awaitNext (([1, 2] : List Nat).foldl chSend ⟨none, 0⟩)
      (Cursor.mk (0 + ([1, 2] : List Nat).length)) = none :=
  lossy_latest_value ⟨none, 0⟩ ⟨0⟩ [1, 2] 2 (by decide) (by decide)
    (by decide)

end Claims4

section Markup

/-- Model of Rust `str::split_once` with a single-character pattern: splits
the list around the first occurrence of the character, which is consumed. -/
def splitOnceChar (ch : Char) : List Char → Option (List Char × List Char)
  | [] => none
  | c :: rest =>
      if c = ch then some ([], rest)
      else (splitOnceChar ch rest).map (fun p => (c :: p.1, p.2))

/-- Model of Rust `str::split_once` with a string pattern: splits the list
around the first occurrence of the pattern, which is consumed. -/
def splitOnceSub (pat : List Char) : List Char → Option (List Char × List Char)
  | [] => if pat = [] then some ([], []) else none
  | c :: rest =>
      if pat.isPrefixOf (c :: rest) then some ([], (c :: rest).drop pat.length)
      else (splitOnceSub pat rest).map (fun p => (c :: p.1, p.2))

theorem isPrefixOf_imp_pre {l1 l2 : List Char} (h : l1.isPrefixOf l2 = true) :
    l1 <+: l2 :=
  List.isPrefixOf_iff_prefix.1 h

theorem pre_imp_isPrefixOf {l1 l2 : List Char} (h : l1 <+: l2) :
    l1.isPrefixOf l2 = true :=
  List.isPrefixOf_iff_prefix.2 h

/-- The double-quote character. -/
def quoteChar : Char := Char.ofNat 34

/-- The search pattern built by `load_index_html`: the characters of
`id="{root_id}"`. -/
def marker (rootId : List Char) : List Char :=
  'i' :: 'd' :: '=' :: quoteChar :: (rootId ++ [quoteChar])

/-- The pure core of `load_index_html` in serve_config.rs, after the file
has been read into `contents`: split at the first occurrence of
`id="{root_id}"`, then split the remainder at the first closing angle
bracket, and rebuild `pre_main` as everything through that bracket with
`post_main` the rest.  The two panic branches are the `none` results. -/
def load_index_html (contents rootId : List Char) :
    Option (List Char × List Char) :=
  match splitOnceSub (marker rootId) contents with
  | none => none
  | some (pre, post) =>
      match splitOnceChar '>' post with
      | none => none
      | some (p0, p1) => some (pre ++ marker rootId ++ p0 ++ ['>'], p1)

theorem splitOnceChar_eq_none (ch : Char) (s : List Char) :
    splitOnceChar ch s = none ↔ ch ∉ s := by
  induction s with
  | nil => simp [splitOnceChar]
  | cons c rest ih =>
      by_cases hc : c = ch
      · subst hc
        simp [splitOnceChar]
      · simp only [splitOnceChar, if_neg hc, Option.map_eq_none', ih,
          List.mem_cons]
        constructor
        · intro h hcs
          rcases hcs with he | hm
          · exact hc he.symm
          · exact h hm
        · intro h hm
          exact h (Or.inr hm)

theorem splitOnceChar_eq_some (ch : Char) (s p q : List Char)
    (h : splitOnceChar ch s = some (p, q)) : s = p ++ ch :: q ∧ ch ∉ p := by
  induction s generalizing p q with
  | nil => simp [splitOnceChar] at h
  | cons c rest ih =>
      by_cases hc : c = ch
      · subst hc
        simp only [splitOnceChar, if_pos rfl, Option.some.injEq,
          Prod.mk.injEq] at h
        obtain ⟨hp, hq⟩ := h
        exact ⟨rfl, by simp⟩
      · simp only [splitOnceChar, if_neg hc, Option.map_eq_some',
          Prod.mk.injEq] at h
        obtain ⟨⟨p', q'⟩, hrec, hp, hq⟩ := h
        subst hp
        subst hq
        obtain ⟨hs, hnp⟩ := ih p' q' hrec
        refine ⟨by rw [hs]; rfl, ?_⟩
        intro hm
        rcases List.mem_cons.1 hm with he | hm2
        · exact hc he.symm
        · exact hnp hm2

theorem splitOnceSub_eq_some (pat s p q : List Char)
    (h : splitOnceSub pat s = some (p, q)) : s = p ++ pat ++ q := by
  induction s generalizing p q with
  | nil =>
      simp only [splitOnceSub] at h
      split at h
      next hpat =>
        simp only [Option.some.injEq, Prod.mk.injEq] at h
        obtain ⟨h1, h2⟩ := h
        subst h1
        subst h2
        simp [hpat]
      next hpat => exact absurd h (by simp)
  | cons c rest ih =>
      by_cases hpre : pat.isPrefixOf (c :: rest)
      · simp only [splitOnceSub, if_pos hpre, Option.some.injEq,
          Prod.mk.injEq] at h
        obtain ⟨h1, h2⟩ := h
        subst h1
        subst h2
        have hp : pat <+: c :: rest := isPrefixOf_imp_pre hpre
        obtain ⟨t, ht⟩ := hp
        rw [← ht, List.drop_left]
        simp
      · simp only [splitOnceSub, if_neg hpre, Option.map_eq_some',
          Prod.mk.injEq] at h
        obtain ⟨⟨p', q'⟩, hrec, hp, hq⟩ := h
        subst hp
        subst hq
        rw [ih p' q' hrec]
        rfl

theorem splitOnceSub_eq_none (pat s : List Char) :
    splitOnceSub pat s = none ↔ ∀ a b, s ≠ a ++ pat ++ b := by
  induction s with
  | nil =>
      by_cases hp : pat = []
      · subst hp
        constructor
        · intro h
          exact absurd h (by simp [splitOnceSub])
        · intro h
          exact absurd rfl (h [] [])
      · simp only [splitOnceSub, if_neg hp]
        constructor
        · intro _ a b hab
          apply hp
          have hlen := congrArg List.length hab
          simp [List.length_append] at hlen
          exact List.eq_nil_of_length_eq_zero (by omega)
        · intro _
          trivial
  | cons c rest ih =>
      by_cases hpre : pat.isPrefixOf (c :: rest)
      · simp only [splitOnceSub, if_pos hpre]
        have hp2 : pat <+: c :: rest := isPrefixOf_imp_pre hpre
        obtain ⟨t, ht⟩ := hp2
        constructor
        · intro h
          exact absurd h (by simp)
        · intro h
          exact absurd ht.symm (h [] t)
      · have hnp : ¬ pat <+: c :: rest := fun hp =>
          hpre (List.isPrefixOf_iff_prefix.2 hp)
        simp only [splitOnceSub, if_neg hpre, Option.map_eq_none', ih]
        constructor
        · intro h a b hab
          cases a with
          | nil =>
              exact hnp ⟨b, by rw [hab]; rfl⟩
          | cons x a =>
              rw [List.cons_append, List.cons_append] at hab
              have hinj := List.cons.inj hab
              exact h a b hinj.2
        · intro h a b hab
          exact h (c :: a) b (by rw [hab]; rfl)

theorem splitOnceSub_min (pat s p q a b : List Char)
    (h : splitOnceSub pat s = some (p, q)) (hab : s = a ++ pat ++ b) :
    p.length ≤ a.length := by
  induction s generalizing p q a b with
  | nil =>
      have hs := splitOnceSub_eq_some pat [] p q h
      have hlen := congrArg List.length hs
      simp [List.length_append] at hlen
      omega
  | cons c rest ih =>
      by_cases hpre : pat.isPrefixOf (c :: rest)
      · simp only [splitOnceSub, if_pos hpre] at h
        have hp := congrArg Prod.fst (Option.some.inj h)
        simp only at hp
        rw [← hp]
        simp
      · simp only [splitOnceSub, if_neg hpre, Option.map_eq_some'] at h
        obtain ⟨⟨pp, qq⟩, hrec, heq⟩ := h
        have hp := congrArg Prod.fst heq
        simp only at hp
        cases a with
        | nil =>
            exact absurd (pre_imp_isPrefixOf ⟨b, by rw [hab]; rfl⟩) hpre
        | cons x a2 =>
            rw [List.cons_append, List.cons_append] at hab
            have hinj := List.cons.inj hab
            have := ih pp qq a2 b hrec hinj.2
            rw [← hp]
            simp only [List.length_cons]
            omega

theorem splitOnceSub_first_mem (pat s p q a b : List Char) (x : Char)
    (h : splitOnceSub pat s = some (p, q)) (hab : s = a ++ pat ++ b)
    (hx : x ∈ b) : x ∈ q := by
  have hs := splitOnceSub_eq_some pat s p q h
  have hmin := splitOnceSub_min pat s p q a b h hab
  have hq : s.drop (p ++ pat).length = q := by
    rw [hs]
    exact List.drop_left _ _
  have hb : s.drop (a ++ pat).length = b := by
    rw [hab]
    exact List.drop_left _ _
  rw [← hq]
  rw [← hb] at hx
  refine List.drop_subset_drop_left s ?_ hx
  simp only [List.length_append]
  omega

end Markup

section Claims5

/-- C9: the splitter fails loudly exactly when it must.  `load_index_html`
takes its error branch (the panic in the source, `none` here) precisely when
the marker `id="{root_id}"` does not occur in the contents, or no closing
angle bracket follows its first occurrence — equivalently, there is no
occurrence of the marker with a closing angle bracket somewhere after it.
When the marker and its closing bracket are present the result is a genuine
split, never a silent empty value. -/
theorem load_index_html_fails_iff (contents rootId : List Char) :
    load_index_html contents rootId = none ↔
      ¬ ∃ a b, contents = a ++ marker rootId ++ b ∧ '>' ∈ b := by
  cases hsub : splitOnceSub (marker rootId) contents with
  | none =>
      have hnone : load_index_html contents rootId = none := by
        simp [load_index_html, hsub]
      rw [hnone]
      constructor
      · intro _ hex
        obtain ⟨a, b, hab, _⟩ := hex
        exact (splitOnceSub_eq_none (marker rootId) contents).1 hsub a b hab
      · intro _
        rfl
  | some pq =>
      obtain ⟨p, q⟩ := pq
      cases hch : splitOnceChar '>' q with
      | none =>
          have hnone : load_index_html contents rootId = none := by
            simp [load_index_html, hsub, hch]
          rw [hnone]
          constructor
          · intro _ hex
            obtain ⟨a, b, hab, hgt⟩ := hex
            have hq : '>' ∈ q :=
              splitOnceSub_first_mem (marker rootId) contents p q a b '>'
                hsub hab hgt
            exact (splitOnceChar_eq_none '>' q).1 hch hq
          · intro _
            rfl
      | some cp =>
          obtain ⟨p0, p1⟩ := cp
          have hsome : load_index_html contents rootId
              = some (p ++ marker rootId ++ p0 ++ ['>'], p1) := by
            simp [load_index_html, hsub, hch]
          rw [hsome]
          constructor
          · intro h
            exact absurd h (by simp)
          · intro hno
            exfalso
            apply hno
            refine ⟨p, q, splitOnceSub_eq_some _ _ _ _ hsub, ?_⟩
            obtain ⟨hqeq, _⟩ := splitOnceChar_eq_some '>' q p0 p1 hch
            rw [hqeq]
            simp

/-- C10: splitting is content-preserving.  Whenever the contents contain the
marker `id="{root_id}"` with a closing angle bracket after it, the splitter
succeeds and the two fragments concatenate back to exactly the original
contents; the pre fragment extends through the first closing angle bracket
after the marker (it ends in that bracket, with no earlier bracket between
the marker and it). -/
theorem load_index_html_concat (contents rootId a b : List Char)
    (hab : contents = a ++ marker rootId ++ b) (hgt : '>' ∈ b) :
    ∃ pre post, load_index_html contents rootId = some (pre, post) ∧
      pre ++ post = contents ∧
      ∃ u v, pre = u ++ marker rootId ++ v ++ ['>'] ∧ '>' ∉ v := by
  cases hsub : splitOnceSub (marker rootId) contents with
  | none =>
      exact absurd hab ((splitOnceSub_eq_none _ _).1 hsub a b)
  | some pq =>
      obtain ⟨p, q⟩ := pq
      have hq : '>' ∈ q :=
        splitOnceSub_first_mem (marker rootId) contents p q a b '>'
          hsub hab hgt
      cases hch : splitOnceChar '>' q with
      | none => exact absurd hq ((splitOnceChar_eq_none '>' q).1 hch)
      | some cp =>
          obtain ⟨p0, p1⟩ := cp
          obtain ⟨hqeq, hnp0⟩ := splitOnceChar_eq_some '>' q p0 p1 hch
          refine ⟨p ++ marker rootId ++ p0 ++ ['>'], p1, ?_, ?_,
            p, p0, rfl, hnp0⟩
          · simp [load_index_html, hsub, hch]
          · have hcont := splitOnceSub_eq_some _ _ _ _ hsub
            rw [hcont, hqeq]
            simp

/-- Concrete index contents for the C10 witness: the marker for root id m
followed by a closing bracket and one further character. -/
def wContents : List Char := marker ['m'] ++ ['>', 'x']

/-- Witness for C10: on the concrete contents the fragments exist, the
splitter succeeds on them, and they concatenate back to the input. -/
theorem load_index_html_concat_witness :
    ∃ pre post, load_index_html wContents ['m'] = some (pre, post) ∧
      pre ++ post = wContents ∧
      ∃ u v, pre = u ++ marker ['m'] ++ v ++ ['>'] ∧ '>' ∉ v :=
  load_index_html_concat wContents ['m'] [] ['>', 'x'] rfl (by decide)

end Claims5
